import Mathlib

/-!
Verification of the layer-stitching engine declared in
`pxr/usd/lib/usdUtils/stitch.h` (`UsdUtilsStitchLayers`, `UsdUtilsStitchInfo`,
`UsdUtilsStitchValueStatus`, `UsdUtilsStitchValueFn`).

The repository slice contains only the header; the merge engine's body is not
under `src/`, so the engine is modelled from the specification's data model
(layers owning a tree of specs, each spec holding named fields of one of a
fixed set of value kinds) and its component contracts (tree merge walker,
spec field merger, value merge policy table, customization callback).
Association lists play the role of the unordered maps (field maps,
dictionaries, time-sample maps, child tables); rationals play the role of the
exact numeric time keys; opaque atomic payloads are modelled by naturals.
-/

namespace UsdUtils

/-- Lookup in an association list: the value paired with the first occurrence
of the key, if any.  Models the key-based access of the host storage engine's
unordered maps. -/
def alLookup {κ α : Type} [DecidableEq κ] (l : List (κ × α)) (k : κ) : Option α :=
  (l.find? (fun p => decide (p.1 = k))).map Prod.snd

/-- Modelled from the spec: the closed tagged union of field-value kinds
(missing `stitch.cpp`): an opaque atomic scalar; a list-edit operation
composed of add/remove/reorder/explicit item lists; a time-sample map from an
exact numeric time key to an opaque payload; an unordered dictionary from
string keys to nested values. -/
inductive Value where
  | scalar (v : Nat)
  | listOp (addedItems deletedItems orderedItems explicitItems : List String)
  | timeSamples (samples : List (Rat × Nat))
  | dict (entries : List (String × Value))

mutual
/-- Modelled from the spec: the dictionary merge policy of the value merge
policy table (missing `stitch.cpp`).  For two dictionaries the merge is
key-wise: entries recurse when both sides hold dictionaries, the strong value
wins otherwise, and weak-only keys are inserted.  When the two sides are not
both dictionaries, the strong value wins wholesale. -/
def Value.dictCombine : Value → Value → Value
  | .dict sd, .dict wd =>
      .dict (mergeEntries sd wd ++ wd.filter (fun q => (alLookup sd q.1).isNone))
  | s, _ => s

/-- Modelled from the spec: the strong-side pass of the dictionary merge
(missing `stitch.cpp`): every strong entry keeps its key; its value is
combined with the weak value at the same key when one exists. -/
def mergeEntries : List (String × Value) → List (String × Value) → List (String × Value)
  | [], _ => []
  | (k, sv) :: rest, wd =>
      (k, match alLookup wd k with
          | some wv => sv.dictCombine wv
          | none => sv) :: mergeEntries rest wd
end

/-- Modelled from the spec: the full result of merging two dictionaries'
entry lists — the combined strong entries followed by the weak-only
entries. -/
def dictMerge (sd wd : List (String × Value)) : List (String × Value) :=
  mergeEntries sd wd ++ wd.filter (fun q => (alLookup sd q.1).isNone)

/-- Modelled from the spec: the time-sample map union of the value merge
policy table (missing `stitch.cpp`): strong entries are kept unchanged, weak
entries whose exact time key is absent from the strong map are appended.
Time keys are compared by exact value equality, with no tolerance. -/
def tsUnion (sd wd : List (Rat × Nat)) : List (Rat × Nat) :=
  sd ++ wd.filter (fun q => (alLookup sd q.1).isNone)

/-- Modelled from the spec: the per-field-kind dispatch of the value merge
policy table (missing `stitch.cpp`) for a field holding a value on both
sides: two dictionaries merge recursively, two time-sample maps merge by key
union, and in every other case (scalars, list-edit operations, mismatched
kinds) the strong value wins wholesale. -/
def Value.fieldCombine : Value → Value → Value
  | .dict sd, .dict wd => Value.dictCombine (.dict sd) (.dict wd)
  | .timeSamples sd, .timeSamples wd => .timeSamples (tsUnion sd wd)
  | s, _ => s

/-- Status enum returned by `UsdUtilsStitchValueFn` describing the desired
value stitching behavior (`UsdUtilsStitchValueStatus` in `stitch.h`). -/
inductive UsdUtilsStitchValueStatus where
  | noStitchedValue
  | useDefaultValue
  | useSuppliedValue

/-- Callback for customizing how values are stitched together
(`UsdUtilsStitchValueFn` in `stitch.h`).  The model passes the field name,
the spec path, and the field's value on each side (whose presence gives the
`fieldInStrongLayer` / `fieldInWeakLayer` flags of the source signature).
The `VtValue* stitchedValue` out-parameter is modelled by the second
component of the result; an empty `VtValue` is modelled by `none`. -/
def UsdUtilsStitchValueFn : Type :=
  String → List String → Option Value → Option Value →
    UsdUtilsStitchValueStatus × Option Value

/-- Modelled from the spec: the default merge policy for one field (missing
`stitch.cpp`): if the strong spec holds a value it is kept (combined per the
policy table when the weak spec also holds one), otherwise the weak value is
copied over verbatim. -/
def defaultStitchValue : Option Value → Option Value → Option Value
  | some sv, some wv => some (sv.fieldCombine wv)
  | some sv, none => some sv
  | none, some wv => some wv
  | none, none => none

/-- Modelled from the spec: the stitched value of one field (missing
`stitch.cpp`).  Without a callback the default policy applies.  With a
callback, `noStitchedValue` leaves the strong side untouched,
`useDefaultValue` falls through to the default policy, and
`useSuppliedValue` installs the supplied value — removing the field when the
supplied value is empty. -/
def stitchFieldValue (stitchValueFn : Option UsdUtilsStitchValueFn)
    (path : List String) (field : String) (sv wv : Option Value) : Option Value :=
  match stitchValueFn with
  | none => defaultStitchValue sv wv
  | some f =>
      match f field path sv wv with
      | (.noStitchedValue, _) => sv
      | (.useDefaultValue, _) => defaultStitchValue sv wv
      | (.useSuppliedValue, supplied) => supplied

/-- Modelled from the spec: a spec's (or a layer's metadata) field map — an
unordered mapping from field name to field value. -/
abbrev Fields : Type := List (String × Value)

/-- Modelled from the spec: the field names examined while merging a spec
pair — the union of the names holding a value on either side (the declared
field set is provided by the host storage engine; names absent from both
sides carry no value to merge). -/
def fieldKeys (sf wf : Fields) : List String :=
  sf.map Prod.fst ++ (wf.map Prod.fst).filter (fun k => (alLookup sf k).isNone)

/-- Modelled from the spec: the spec field merger (missing `stitch.cpp`):
for every examined field name, the stitched value of that field, dropped
from the result when the stitching removed it. -/
def stitchFields (stitchValueFn : Option UsdUtilsStitchValueFn)
    (path : List String) (sf wf : Fields) : Fields :=
  (fieldKeys sf wf).filterMap (fun k =>
    (stitchFieldValue stitchValueFn path k (alLookup sf k) (alLookup wf k)).map
      (fun v => (k, v)))

/-- Modelled from the spec: one node of a layer's spec tree, holding a field
map and child specs reachable by path extension. -/
inductive SpecTree where
  | node (fields : Fields) (children : List (String × SpecTree))

/-- Field map of a spec. -/
def SpecTree.fields : SpecTree → Fields
  | .node f _ => f

/-- Child table of a spec. -/
def SpecTree.children : SpecTree → List (String × SpecTree)
  | .node _ c => c

mutual
/-- Modelled from the spec: the tree merge walker (missing `stitch.cpp`) on
a pair of corresponding specs: their fields are delegated to the spec field
merger; strong children are recursed into when the weak spec has a child at
the same path component and left untouched otherwise; weak-only children are
cloned verbatim, whole subtree included, with no further recursion into the
cloned subtree. -/
def stitchTree (stitchValueFn : Option UsdUtilsStitchValueFn)
    (path : List String) : SpecTree → SpecTree → SpecTree
  | .node sf sc, .node wf wc =>
      .node (stitchFields stitchValueFn path sf wf)
        (stitchChildren stitchValueFn path sc wc
          ++ wc.filter (fun q => (alLookup sc q.1).isNone))

/-- Modelled from the spec: the strong-side pass of the walker over a child
table: every strong child keeps its name, recursing when the weak spec has a
child of the same name. -/
def stitchChildren (stitchValueFn : Option UsdUtilsStitchValueFn)
    (path : List String) :
    List (String × SpecTree) → List (String × SpecTree) → List (String × SpecTree)
  | [], _ => []
  | (c, st) :: rest, wc =>
      (c, match alLookup wc c with
          | some wt => stitchTree stitchValueFn (path ++ [c]) st wt
          | none => st) :: stitchChildren stitchValueFn path rest wc
end

/-- Modelled from the spec: minimum of two optional time codes, a missing
value being excluded from the comparison rather than treated as zero. -/
def optMin : Option Rat → Option Rat → Option Rat
  | some a, some b => some (min a b)
  | some a, none => some a
  | none, some b => some b
  | none, none => none

/-- Modelled from the spec: maximum of two optional time codes, a missing
value being excluded from the comparison rather than treated as zero. -/
def optMax : Option Rat → Option Rat → Option Rat
  | some a, some b => some (max a b)
  | some a, none => some a
  | none, some b => some b
  | none, none => none

/-- Modelled from the spec: a layer — a container owning a tree of specs
rooted at the pseudoroot, plus layer-scoped metadata fields, of which the
start and end time codes are the two min/max-aggregated ones. -/
structure Layer where
  startTimeCode : Option Rat
  endTimeCode : Option Rat
  metadata : Fields
  root : SpecTree

/-- Modelled from the spec: the whole-layer merge (missing `stitch.cpp`):
the weak tree is walked against the strong tree from the pseudoroot, the
layer metadata is merged exactly like spec fields, and the start (resp. end)
time code becomes the minimum (resp. maximum) across the two layers. -/
def stitchLayerWork (stitchValueFn : Option UsdUtilsStitchValueFn)
    (strongLayer weakLayer : Layer) : Layer :=
  { startTimeCode := optMin strongLayer.startTimeCode weakLayer.startTimeCode
    endTimeCode := optMax strongLayer.endTimeCode weakLayer.endTimeCode
    metadata := stitchFields stitchValueFn [] strongLayer.metadata weakLayer.metadata
    root := stitchTree stitchValueFn [] strongLayer.root weakLayer.root }

/-- Modelled from the spec: `UsdUtilsStitchLayers(strongLayer, weakLayer)`
(missing `stitch.cpp`) — the default-form whole-layer merge; the returned
layer is the new state of the strong layer, which the engine mutates in
place. -/
def UsdUtilsStitchLayers (strongLayer weakLayer : Layer) : Layer :=
  stitchLayerWork none strongLayer weakLayer

/-- Modelled from the spec: the advanced form
`UsdUtilsStitchLayers(strongLayer, weakLayer, stitchValueFn)` (missing
`stitch.cpp`). -/
def UsdUtilsStitchLayersFn (strongLayer weakLayer : Layer)
    (stitchValueFn : UsdUtilsStitchValueFn) : Layer :=
  stitchLayerWork (some stitchValueFn) strongLayer weakLayer

/-- Modelled from the spec: `UsdUtilsStitchInfo(strongObj, weakObj)`
(missing `stitch.cpp`) — merges only the fields of two already-identified
corresponding specs, without tree recursion; the returned spec is the new
state of the strong spec. -/
def UsdUtilsStitchInfo (strongObj weakObj : SpecTree) : SpecTree :=
  .node (stitchFields none [] strongObj.fields weakObj.fields) strongObj.children

/-- Modelled from the spec: the advanced form
`UsdUtilsStitchInfo(strongObj, weakObj, stitchValueFn)` (missing
`stitch.cpp`). -/
def UsdUtilsStitchInfoFn (strongObj weakObj : SpecTree)
    (stitchValueFn : UsdUtilsStitchValueFn) : SpecTree :=
  .node (stitchFields (some stitchValueFn) [] strongObj.fields weakObj.fields)
    strongObj.children

/-- Modelled from the spec: the callback that always returns
`UseDefaultValue`, to which the absence of a callback is claimed
equivalent. -/
def alwaysUseDefault : UsdUtilsStitchValueFn :=
  fun _ _ _ _ => (.useDefaultValue, none)

/-- Modelled from the spec: the merge call as a transformer of the two-layer
store — the strong layer is replaced by the merge result while the weak
layer is read without modification, and no layer is created or destroyed. -/
def stitchLayersState (stitchValueFn : Option UsdUtilsStitchValueFn)
    (layers : Layer × Layer) : Layer × Layer :=
  (stitchLayerWork stitchValueFn layers.1 layers.2, layers.2)

mutual
/-- Modelled from the spec: well-formedness of a field value as an instance
of the data model — every dictionary level and every time-sample map has
pairwise-distinct keys (they model unordered maps). -/
def Value.wf : Value → Bool
  | .scalar _ => true
  | .listOp _ _ _ _ => true
  | .timeSamples s => decide ((s.map Prod.fst).Nodup)
  | .dict es => decide ((es.map Prod.fst).Nodup) && entriesWf es

/-- Well-formedness of a dictionary's entry list's values. -/
def entriesWf : List (String × Value) → Bool
  | [] => true
  | (_, v) :: rest => v.wf && entriesWf rest
end

/-- Well-formedness of a field map: pairwise-distinct field names and
well-formed values. -/
def fieldsValuesWf : Fields → Bool
  | [] => true
  | (_, v) :: rest => v.wf && fieldsValuesWf rest

/-- Well-formedness of a field map: pairwise-distinct field names and
well-formed values. -/
def fieldsWf (fs : Fields) : Bool :=
  decide ((fs.map Prod.fst).Nodup) && fieldsValuesWf fs

mutual
/-- Modelled from the spec: well-formedness of a spec tree — each node's
field map is well formed and each child table has pairwise-distinct
names. -/
def SpecTree.wf : SpecTree → Bool
  | .node f c => fieldsWf f && decide ((c.map Prod.fst).Nodup) && childrenWf c

/-- Well-formedness of the subtrees of a child table. -/
def childrenWf : List (String × SpecTree) → Bool
  | [] => true
  | (_, t) :: rest => t.wf && childrenWf rest
end

/-- Well-formedness of a layer: well-formed metadata map and spec tree. -/
def Layer.wf (l : Layer) : Bool :=
  fieldsWf l.metadata && l.root.wf

mutual
/-- Whether a key occurs in a value's dictionary structure at any nesting
depth. -/
def Value.hasKeyDeep : Value → String → Bool
  | .dict es, k => entriesHasKeyDeep es k
  | _, _ => false

/-- Whether a key occurs in an entry list at any nesting depth. -/
def entriesHasKeyDeep : List (String × Value) → String → Bool
  | [], _ => false
  | (k0, v) :: rest, k => (k0 == k) || v.hasKeyDeep k || entriesHasKeyDeep rest k
end

/-- The spec, if any, reached from a tree by following a hierarchical
path. -/
def lookupPath : SpecTree → List String → Option SpecTree
  | t, [] => some t
  | t, c :: rest =>
      match alLookup t.children c with
      | some child => lookupPath child rest
      | none => none

/-- Whether a value is an opaque scalar or a list-edit operation — the two
kinds merged by pure presence-based precedence, never combined. -/
def Value.isPlain : Value → Bool
  | .scalar _ => true
  | .listOp _ _ _ _ => true
  | _ => false

/-- Whether a value is a dictionary. -/
def Value.isDict : Value → Bool
  | .dict _ => true
  | _ => false

/-- A concrete strong layer used in the concrete instances below. -/
def sampleStrongLayer : Layer :=
  { startTimeCode := some 5
    endTimeCode := some 10
    metadata := [("fps", .scalar 24)]
    root := .node
      [("d", .dict [("x", .scalar 1)]), ("r", .listOp ["A"] [] [] [])]
      [("a", .node [("f", .scalar 3)] [])] }

/-- A concrete weak layer used in the concrete instances below. -/
def sampleWeakLayer : Layer :=
  { startTimeCode := some 2
    endTimeCode := some 20
    metadata := [("up", .scalar 1)]
    root := .node
      [("d", .dict [("y", .scalar 9)]), ("r", .listOp ["B"] [] [] [])]
      [("b", .node [("g", .scalar 4)] [("bb", .node [] [])])] }

/-! Generic association-list lemmas. -/

theorem alLookup_nil {κ α : Type} [DecidableEq κ] (k : κ) :
    alLookup ([] : List (κ × α)) k = none := rfl

theorem alLookup_cons {κ α : Type} [DecidableEq κ] (a : κ × α) (l : List (κ × α)) (k : κ) :
    alLookup (a :: l) k = if a.1 = k then some a.2 else alLookup l k := by
  by_cases h : a.1 = k
  · simp [alLookup, List.find?_cons_of_pos, h]
  · simp only [if_neg h]
    have hp : (fun p : κ × α => decide (p.1 = k)) a = false := by simp [h]
    simp [alLookup, List.find?_cons_of_neg, hp]

theorem alLookup_append_some {κ α : Type} [DecidableEq κ] {l₁ : List (κ × α)}
    (l₂ : List (κ × α)) {k : κ} {v : α} (h : alLookup l₁ k = some v) :
    alLookup (l₁ ++ l₂) k = some v := by
  induction l₁ with
  | nil => simp [alLookup_nil] at h
  | cons a rest ih =>
      rw [List.cons_append, alLookup_cons] at *
      by_cases ha : a.1 = k
      · simpa [ha] using h
      · rw [if_neg ha] at h ⊢
        exact ih h

theorem alLookup_append_none {κ α : Type} [DecidableEq κ] {l₁ : List (κ × α)}
    (l₂ : List (κ × α)) {k : κ} (h : alLookup l₁ k = none) :
    alLookup (l₁ ++ l₂) k = alLookup l₂ k := by
  induction l₁ with
  | nil => simp
  | cons a rest ih =>
      rw [alLookup_cons] at h
      by_cases ha : a.1 = k
      · simp [ha] at h
      · rw [List.cons_append, alLookup_cons, if_neg ha]
        exact ih (by simpa [ha] using h)

theorem alLookup_isSome_iff {κ α : Type} [DecidableEq κ] (l : List (κ × α)) (k : κ) :
    (alLookup l k).isSome = true ↔ k ∈ l.map Prod.fst := by
  induction l with
  | nil => simp [alLookup_nil]
  | cons a rest ih =>
      rw [alLookup_cons]
      by_cases ha : a.1 = k
      · simp [ha]
      · simp only [if_neg ha, List.map_cons, List.mem_cons, ih]
        constructor
        · exact fun h => Or.inr h
        · rintro (h | h)
          · exact absurd h.symm ha
          · exact h

theorem alLookup_eq_none_iff {κ α : Type} [DecidableEq κ] (l : List (κ × α)) (k : κ) :
    alLookup l k = none ↔ k ∉ l.map Prod.fst := by
  rw [← alLookup_isSome_iff]
  cases alLookup l k <;> simp

theorem alLookup_mem {κ α : Type} [DecidableEq κ] {l : List (κ × α)} {k : κ} {v : α}
    (h : alLookup l k = some v) : (k, v) ∈ l := by
  induction l with
  | nil => simp [alLookup_nil] at h
  | cons a rest ih =>
      rw [alLookup_cons] at h
      by_cases ha : a.1 = k
      · rw [if_pos ha] at h
        obtain ⟨a1, a2⟩ := a
        subst ha
        obtain rfl := Option.some.inj h
        exact List.mem_cons_self _ _
      · rw [if_neg ha] at h
        exact List.mem_cons_of_mem _ (ih h)

theorem alLookup_nodup_mem {κ α : Type} [DecidableEq κ] {l : List (κ × α)}
    (hnd : (l.map Prod.fst).Nodup) {p : κ × α} (hp : p ∈ l) :
    alLookup l p.1 = some p.2 := by
  induction l with
  | nil => simp at hp
  | cons a rest ih =>
      rw [List.map_cons, List.nodup_cons] at hnd
      rw [alLookup_cons]
      rcases List.mem_cons.mp hp with h | h
      · subst h
        simp
      · have hne : a.1 ≠ p.1 := by
          intro he
          exact hnd.1 (he ▸ (List.mem_map.mpr ⟨p, h, rfl⟩))
        rw [if_neg hne]
        exact ih hnd.2 h

theorem alLookup_filter_key {κ α : Type} [DecidableEq κ] (p : κ → Bool)
    (l : List (κ × α)) (k : κ) :
    alLookup (l.filter (fun q => p q.1)) k = if p k then alLookup l k else none := by
  induction l with
  | nil => simp [alLookup_nil]
  | cons a rest ih =>
      by_cases ha : a.1 = k
      · subst ha
        cases hpa : p a.1 with
        | true => simp [List.filter_cons, hpa, alLookup_cons, ih]
        | false => simp [List.filter_cons, hpa, alLookup_cons, ih]
      · cases hpa : p a.1 with
        | true => simp [List.filter_cons, hpa, alLookup_cons, if_neg ha, ih]
        | false => simp [List.filter_cons, hpa, alLookup_cons, if_neg ha, ih]

theorem alLookup_keyed_map {κ α β : Type} [DecidableEq κ] (F : κ → α → β)
    (l : List (κ × α)) (k : κ) :
    alLookup (l.map (fun p => (p.1, F p.1 p.2))) k = (alLookup l k).map (F k) := by
  induction l with
  | nil => simp [alLookup_nil]
  | cons a rest ih =>
      rw [List.map_cons, alLookup_cons, alLookup_cons]
      by_cases ha : a.1 = k
      · subst ha
        simp
      · simp only [if_neg ha, ih]

theorem keys_keyed_map {κ α β : Type} (F : κ → α → β) (l : List (κ × α)) :
    (l.map (fun p => (p.1, F p.1 p.2))).map Prod.fst = l.map Prod.fst := by
  induction l with
  | nil => rfl
  | cons a rest ih => simp [ih]

theorem keyed_map_eq_self {κ α : Type} (F : κ → α → α) (l : List (κ × α))
    (h : ∀ p ∈ l, F p.1 p.2 = p.2) :
    l.map (fun p => (p.1, F p.1 p.2)) = l := by
  induction l with
  | nil => rfl
  | cons a rest ih =>
      rw [List.map_cons, h a (List.mem_cons_self a rest), ih (fun p hp => h p (List.mem_cons_of_mem a hp))]

theorem alLookup_filterMap_keys {κ α : Type} [DecidableEq κ] (f : κ → Option α)
    (ks : List κ) (k : κ) :
    alLookup (ks.filterMap (fun x => (f x).map (fun v => (x, v)))) k
      = if k ∈ ks then f k else none := by
  induction ks with
  | nil => simp [alLookup_nil]
  | cons x rest ih =>
      rw [List.filterMap_cons]
      cases hf : f x with
      | none =>
          rw [Option.map_none', ih]
          by_cases hx : x = k
          · subst hx
            simp [hf, apply_ite]
          · have hkx : ¬k = x := fun h => hx h.symm
            simp [List.mem_cons, hkx]
      | some v =>
          rw [Option.map_some', alLookup_cons]
          by_cases hx : x = k
          · subst hx
            simp [hf]
          · rw [if_neg hx, ih]
            have hkx : ¬k = x := fun h => hx h.symm
            simp [List.mem_cons, hkx]

theorem keys_filterMap_keys {κ α : Type} (f : κ → Option α) (ks : List κ)
    (h : ∀ x ∈ ks, (f x).isSome = true) :
    (ks.filterMap (fun x => (f x).map (fun v => (x, v)))).map Prod.fst = ks := by
  induction ks with
  | nil => rfl
  | cons x rest ih =>
      rw [List.filterMap_cons]
      cases hf : f x with
      | none =>
          have := h x (List.mem_cons_self x rest)
          rw [hf] at this
          simp at this
      | some v =>
          simp only [Option.map_some']
          rw [List.map_cons, ih (fun y hy => h y (List.mem_cons_of_mem x hy))]

theorem filterMap_keys_congr {κ α : Type} {f g : κ → Option α} {ks : List κ}
    (h : ∀ x ∈ ks, f x = g x) :
    ks.filterMap (fun x => (f x).map (fun v => (x, v)))
      = ks.filterMap (fun x => (g x).map (fun v => (x, v))) := by
  induction ks with
  | nil => rfl
  | cons x rest ih =>
      rw [List.filterMap_cons, List.filterMap_cons, h x (List.mem_cons_self x rest),
        ih (fun y hy => h y (List.mem_cons_of_mem x hy))]

/-! Deep induction principles for the nested inductive types. -/

theorem valueInductDeep {P : Value → Prop}
    (hs : ∀ n, P (.scalar n))
    (hl : ∀ a d o e, P (.listOp a d o e))
    (ht : ∀ s, P (.timeSamples s))
    (hd : ∀ es, (∀ p ∈ es, P p.2) → P (.dict es)) :
    ∀ v, P v
  | .scalar n => hs n
  | .listOp a d o e => hl a d o e
  | .timeSamples s => ht s
  | .dict es => hd es (fun p hp =>
      have hlt : sizeOf p.2 < sizeOf (Value.dict es) := by
        have h1 := List.sizeOf_lt_of_mem hp
        obtain ⟨a, b⟩ := p
        simp only [Value.dict.sizeOf_spec]
        simp only [Prod.mk.sizeOf_spec] at h1
        omega
      valueInductDeep hs hl ht hd p.2)
termination_by v => sizeOf v
decreasing_by
simp only [Value.dict.sizeOf_spec] at hlt ⊢
omega

theorem treeInductDeep {P : SpecTree → Prop}
    (h : ∀ f c, (∀ q ∈ c, P q.2) → P (.node f c)) :
    ∀ t, P t
  | .node f c => h f c (fun q hq =>
      have hlt : sizeOf q.2 < sizeOf (SpecTree.node f c) := by
        have h1 := List.sizeOf_lt_of_mem hq
        obtain ⟨a, b⟩ := q
        simp only [SpecTree.node.sizeOf_spec]
        simp only [Prod.mk.sizeOf_spec] at h1
        omega
      treeInductDeep h q.2)
termination_by t => sizeOf t
decreasing_by
simp only [SpecTree.node.sizeOf_spec] at hlt ⊢
omega

/-! Characterizations of the merge passes as keyed maps, and of lookups into
merge results. -/

theorem mergeEntries_eq_map (sd wd : List (String × Value)) :
    mergeEntries sd wd = sd.map (fun p => (p.1,
      match alLookup wd p.1 with
      | some wv => p.2.dictCombine wv
      | none => p.2)) := by
  induction sd with
  | nil => rfl
  | cons a rest ih =>
      obtain ⟨k, sv⟩ := a
      rw [List.map_cons, mergeEntries, ih]

theorem stitchChildren_eq_map (cb : Option UsdUtilsStitchValueFn) (p : List String)
    (sc wc : List (String × SpecTree)) :
    stitchChildren cb p sc wc = sc.map (fun q => (q.1,
      match alLookup wc q.1 with
      | some wt => stitchTree cb (p ++ [q.1]) q.2 wt
      | none => q.2)) := by
  induction sc with
  | nil => rfl
  | cons a rest ih =>
      obtain ⟨c, st⟩ := a
      rw [List.map_cons, stitchChildren, ih]

theorem mergeEntries_lookup (sd wd : List (String × Value)) (k : String) :
    alLookup (mergeEntries sd wd) k = (alLookup sd k).map (fun sv =>
      match alLookup wd k with
      | some wv => sv.dictCombine wv
      | none => sv) := by
  induction sd with
  | nil => rfl
  | cons a rest ih =>
      obtain ⟨k0, sv0⟩ := a
      rw [mergeEntries, alLookup_cons, alLookup_cons]
      by_cases h : k0 = k
      · subst h
        simp
      · show (if k0 = k then _ else _) = _
        rw [if_neg h, if_neg h, ih]

theorem mergeEntries_keys (sd wd : List (String × Value)) :
    (mergeEntries sd wd).map Prod.fst = sd.map Prod.fst := by
  induction sd with
  | nil => rfl
  | cons a rest ih =>
      obtain ⟨k0, sv0⟩ := a
      rw [mergeEntries, List.map_cons, List.map_cons, ih]

theorem dictMerge_lookup (sd wd : List (String × Value)) (k : String) :
    alLookup (dictMerge sd wd) k =
      match alLookup sd k with
      | some sv => some (match alLookup wd k with
                         | some wv => sv.dictCombine wv
                         | none => sv)
      | none => alLookup wd k := by
  unfold dictMerge
  cases hs : alLookup sd k with
  | some sv =>
      have h1 : alLookup (mergeEntries sd wd) k
          = some (match alLookup wd k with
                  | some wv => sv.dictCombine wv
                  | none => sv) := by
        rw [mergeEntries_lookup, hs]
        rfl
      rw [alLookup_append_some _ h1]
  | none =>
      have h1 : alLookup (mergeEntries sd wd) k = none := by
        rw [mergeEntries_lookup, hs]
        rfl
      rw [alLookup_append_none _ h1,
        alLookup_filter_key (fun x => (alLookup sd x).isNone) wd k, hs]
      simp

theorem dictCombine_dict (sd wd : List (String × Value)) :
    (Value.dict sd).dictCombine (.dict wd) = .dict (dictMerge sd wd) := by
  rw [Value.dictCombine, dictMerge]

theorem tsUnion_lookup (sd wd : List (Rat × Nat)) (t : Rat) :
    alLookup (tsUnion sd wd) t =
      match alLookup sd t with
      | some v => some v
      | none => alLookup wd t := by
  unfold tsUnion
  cases hs : alLookup sd t with
  | some v => rw [alLookup_append_some _ hs]
  | none =>
      rw [alLookup_append_none _ hs,
        alLookup_filter_key (fun x => (alLookup sd x).isNone) wd t, hs]
      simp

theorem mem_fieldKeys (sf wf : Fields) (k : String) :
    k ∈ fieldKeys sf wf ↔ k ∈ sf.map Prod.fst ∨ k ∈ wf.map Prod.fst := by
  unfold fieldKeys
  rw [List.mem_append, List.mem_filter]
  constructor
  · rintro (h | ⟨h, _⟩)
    · exact Or.inl h
    · exact Or.inr h
  · rintro (h | h)
    · exact Or.inl h
    · by_cases hsk : k ∈ sf.map Prod.fst
      · exact Or.inl hsk
      · refine Or.inr ⟨h, ?_⟩
        rw [(alLookup_eq_none_iff sf k).mpr hsk]
        rfl

theorem stitchFields_lookup (cb : Option UsdUtilsStitchValueFn) (p : List String)
    (sf wf : Fields) (k : String) :
    alLookup (stitchFields cb p sf wf) k =
      if k ∈ fieldKeys sf wf
      then stitchFieldValue cb p k (alLookup sf k) (alLookup wf k)
      else none :=
  alLookup_filterMap_keys
    (fun x => stitchFieldValue cb p x (alLookup sf x) (alLookup wf x))
    (fieldKeys sf wf) k

theorem stitchFields_lookup_strong (cb : Option UsdUtilsStitchValueFn)
    (p : List String) {sf : Fields} (wf : Fields) {k : String} {sv : Value}
    (hs : alLookup sf k = some sv) :
    alLookup (stitchFields cb p sf wf) k
      = stitchFieldValue cb p k (some sv) (alLookup wf k) := by
  have hk : k ∈ fieldKeys sf wf := by
    rw [mem_fieldKeys]
    exact Or.inl ((alLookup_isSome_iff sf k).mp (by rw [hs]; rfl))
  rw [stitchFields_lookup, if_pos hk, hs]

theorem stitchFields_lookup_weak (cb : Option UsdUtilsStitchValueFn)
    (p : List String) {sf wf : Fields} {k : String}
    (hs : alLookup sf k = none) (hw : k ∈ wf.map Prod.fst) :
    alLookup (stitchFields cb p sf wf) k
      = stitchFieldValue cb p k none (alLookup wf k) := by
  have hk : k ∈ fieldKeys sf wf := (mem_fieldKeys sf wf k).mpr (Or.inr hw)
  rw [stitchFields_lookup, if_pos hk, hs]

theorem stitchTree_node (cb : Option UsdUtilsStitchValueFn) (p : List String)
    (sf wf : Fields) (sc wc : List (String × SpecTree)) :
    stitchTree cb p (.node sf sc) (.node wf wc)
      = .node (stitchFields cb p sf wf)
          (stitchChildren cb p sc wc ++ wc.filter (fun q => (alLookup sc q.1).isNone)) := by
  rw [stitchTree]

theorem stitchChildren_lookup (cb : Option UsdUtilsStitchValueFn) (p : List String)
    (sc wc : List (String × SpecTree)) (c : String) :
    alLookup (stitchChildren cb p sc wc) c = (alLookup sc c).map (fun st =>
      match alLookup wc c with
      | some wt => stitchTree cb (p ++ [c]) st wt
      | none => st) := by
  induction sc with
  | nil => rfl
  | cons a rest ih =>
      obtain ⟨c0, st0⟩ := a
      rw [stitchChildren, alLookup_cons, alLookup_cons]
      by_cases h : c0 = c
      · subst h
        simp
      · show (if c0 = c then _ else _) = _
        rw [if_neg h, if_neg h, ih]

theorem stitchChildren_keys (cb : Option UsdUtilsStitchValueFn) (p : List String)
    (sc wc : List (String × SpecTree)) :
    (stitchChildren cb p sc wc).map Prod.fst = sc.map Prod.fst := by
  induction sc with
  | nil => rfl
  | cons a rest ih =>
      obtain ⟨c0, st0⟩ := a
      rw [stitchChildren, List.map_cons, List.map_cons, ih]

theorem stitchTree_children_lookup (cb : Option UsdUtilsStitchValueFn)
    (p : List String) (s w : SpecTree) (c : String) :
    alLookup (stitchTree cb p s w).children c =
      match alLookup s.children c with
      | some st => some (match alLookup w.children c with
                         | some wt => stitchTree cb (p ++ [c]) st wt
                         | none => st)
      | none => alLookup w.children c := by
  obtain ⟨sf, sc⟩ := s
  obtain ⟨wf, wc⟩ := w
  rw [stitchTree_node]
  simp only [SpecTree.children]
  cases hs : alLookup sc c with
  | some st =>
      have h1 : alLookup (stitchChildren cb p sc wc) c
          = some (match alLookup wc c with
                  | some wt => stitchTree cb (p ++ [c]) st wt
                  | none => st) := by
        rw [stitchChildren_lookup, hs]
        rfl
      rw [alLookup_append_some _ h1]
  | none =>
      have h1 : alLookup (stitchChildren cb p sc wc) c = none := by
        rw [stitchChildren_lookup, hs]
        rfl
      rw [alLookup_append_none _ h1,
        alLookup_filter_key (fun x => (alLookup sc x).isNone) wc c, hs]
      simp

theorem stitchTree_fields (cb : Option UsdUtilsStitchValueFn) (p : List String)
    (s w : SpecTree) :
    (stitchTree cb p s w).fields = stitchFields cb p s.fields w.fields := by
  obtain ⟨sf, sc⟩ := s
  obtain ⟨wf, wc⟩ := w
  rw [stitchTree_node]
  rfl

/-! Well-formedness unfolding lemmas. -/

theorem entriesWf_mem {es : List (String × Value)} (h : entriesWf es = true)
    {p : String × Value} (hp : p ∈ es) : p.2.wf = true := by
  induction es with
  | nil => simp at hp
  | cons a rest ih =>
      obtain ⟨k, v⟩ := a
      rw [entriesWf, Bool.and_eq_true] at h
      rcases List.mem_cons.mp hp with h1 | h1
      · subst h1
        exact h.1
      · exact ih h.2 h1

theorem fieldsValuesWf_mem {fs : Fields} (h : fieldsValuesWf fs = true)
    {p : String × Value} (hp : p ∈ fs) : p.2.wf = true := by
  induction fs with
  | nil => simp at hp
  | cons a rest ih =>
      obtain ⟨k, v⟩ := a
      rw [fieldsValuesWf, Bool.and_eq_true] at h
      rcases List.mem_cons.mp hp with h1 | h1
      · subst h1
        exact h.1
      · exact ih h.2 h1

theorem childrenWf_mem {c : List (String × SpecTree)} (h : childrenWf c = true)
    {q : String × SpecTree} (hq : q ∈ c) : q.2.wf = true := by
  induction c with
  | nil => simp at hq
  | cons a rest ih =>
      obtain ⟨k, t⟩ := a
      rw [childrenWf, Bool.and_eq_true] at h
      rcases List.mem_cons.mp hq with h1 | h1
      · subst h1
        exact h.1
      · exact ih h.2 h1

theorem fieldsWf_parts {fs : Fields} (h : fieldsWf fs = true) :
    (fs.map Prod.fst).Nodup ∧ fieldsValuesWf fs = true := by
  rw [fieldsWf, Bool.and_eq_true, decide_eq_true_iff] at h
  exact h

theorem valueWf_dict_parts {es : List (String × Value)}
    (h : (Value.dict es).wf = true) :
    (es.map Prod.fst).Nodup ∧ entriesWf es = true := by
  rw [Value.wf, Bool.and_eq_true, decide_eq_true_iff] at h
  exact h

theorem specWf_parts {f : Fields} {c : List (String × SpecTree)}
    (h : (SpecTree.node f c).wf = true) :
    fieldsWf f = true ∧ (c.map Prod.fst).Nodup ∧ childrenWf c = true := by
  rw [SpecTree.wf, Bool.and_eq_true, Bool.and_eq_true, decide_eq_true_iff] at h
  exact ⟨h.1.1, h.1.2, h.2⟩

/-! Idempotence machinery at the value level. -/

theorem filter_absent_nil {κ α β : Type} [DecidableEq κ] (big : List (κ × β))
    (l : List (κ × α)) (h : ∀ a ∈ l, (alLookup big a.1).isSome = true) :
    l.filter (fun q => (alLookup big q.1).isNone) = [] := by
  rw [List.filter_eq_nil_iff]
  intro a ha
  have hm := h a ha
  cases hb : alLookup big a.1 with
  | some v => simp [hb]
  | none =>
      rw [hb] at hm
      simp at hm

theorem tsUnion_self (s : List (Rat × Nat)) : tsUnion s s = s := by
  have hfil : s.filter (fun q => (alLookup s q.1).isNone) = [] :=
    filter_absent_nil s s (fun a ha =>
      (alLookup_isSome_iff s a.1).mpr (List.mem_map.mpr ⟨a, ha, rfl⟩))
  show s ++ s.filter (fun q => (alLookup s q.1).isNone) = s
  rw [hfil, List.append_nil]

theorem tsUnion_absorb (s w : List (Rat × Nat)) :
    tsUnion (tsUnion s w) w = tsUnion s w := by
  have hfil : w.filter (fun q => (alLookup (tsUnion s w) q.1).isNone) = [] :=
    filter_absent_nil (tsUnion s w) w (fun a ha => by
      rw [tsUnion_lookup]
      cases h1 : alLookup s a.1 with
      | some v => rfl
      | none =>
          show (alLookup w a.1).isSome = true
          exact (alLookup_isSome_iff w a.1).mpr (List.mem_map.mpr ⟨a, ha, rfl⟩))
  show tsUnion s w ++ w.filter (fun q => (alLookup (tsUnion s w) q.1).isNone) = tsUnion s w
  rw [hfil, List.append_nil]

theorem mergeEntries_eq_self {sd wd : List (String × Value)}
    (h : ∀ p ∈ sd, ∀ wv, alLookup wd p.1 = some wv → p.2.dictCombine wv = p.2) :
    mergeEntries sd wd = sd := by
  induction sd with
  | nil => rfl
  | cons a rest ih =>
      obtain ⟨k, sv⟩ := a
      rw [mergeEntries]
      have ht : mergeEntries rest wd = rest :=
        ih (fun p hp wv hw => h p (List.mem_cons_of_mem _ hp) wv hw)
      cases hw : alLookup wd k with
      | some wv =>
          show (k, sv.dictCombine wv) :: mergeEntries rest wd = (k, sv) :: rest
          rw [h (k, sv) (List.mem_cons_self _ _) wv hw, ht]
      | none =>
          show (k, sv) :: mergeEntries rest wd = (k, sv) :: rest
          rw [ht]

theorem dictCombine_self (v : Value) : v.wf = true → v.dictCombine v = v := by
  induction v using valueInductDeep with
  | hs n => exact fun _ => rfl
  | hl a d o e => exact fun _ => rfl
  | ht s => exact fun _ => rfl
  | hd es ih =>
      intro h
      obtain ⟨hnd, hew⟩ := valueWf_dict_parts h
      have hfil : es.filter (fun q => (alLookup es q.1).isNone) = [] :=
        filter_absent_nil es es (fun a ha =>
          (alLookup_isSome_iff es a.1).mpr (List.mem_map.mpr ⟨a, ha, rfl⟩))
      have hme : mergeEntries es es = es :=
        mergeEntries_eq_self (fun p hp wv hw => by
          rw [alLookup_nodup_mem hnd hp] at hw
          obtain rfl := Option.some.inj hw
          exact ih p hp (entriesWf_mem hew hp))
      rw [dictCombine_dict, dictMerge, hme, hfil, List.append_nil]

theorem fieldCombine_self (v : Value) (h : v.wf = true) : v.fieldCombine v = v := by
  cases v with
  | scalar n => rfl
  | listOp a d o e => rfl
  | timeSamples s =>
      show Value.timeSamples (tsUnion s s) = Value.timeSamples s
      rw [tsUnion_self]
  | dict es =>
      show (Value.dict es).dictCombine (.dict es) = Value.dict es
      exact dictCombine_self _ h

theorem dictCombine_absorb (w : Value) : w.wf = true →
    ∀ s : Value, (s.dictCombine w).dictCombine w = s.dictCombine w := by
  induction w using valueInductDeep with
  | hs n => exact fun _ s => by cases s <;> rfl
  | hl a d o e => exact fun _ s => by cases s <;> rfl
  | ht ts => exact fun _ s => by cases s <;> rfl
  | hd wd ih =>
      intro hwf s
      obtain ⟨hnd, hew⟩ := valueWf_dict_parts hwf
      cases s with
      | scalar n => rfl
      | listOp a d o e => rfl
      | timeSamples ts => rfl
      | dict sd =>
          rw [dictCombine_dict, dictCombine_dict]
          have hfil : wd.filter (fun q => (alLookup (dictMerge sd wd) q.1).isNone) = [] :=
            filter_absent_nil (dictMerge sd wd) wd (fun a ha => by
              rw [dictMerge_lookup]
              cases h1 : alLookup sd a.1 with
              | some v => rfl
              | none =>
                  show (alLookup wd a.1).isSome = true
                  exact (alLookup_isSome_iff wd a.1).mpr (List.mem_map.mpr ⟨a, ha, rfl⟩))
          have hme : mergeEntries (dictMerge sd wd) wd = dictMerge sd wd :=
            mergeEntries_eq_self (fun p hp wv hw => by
              rcases List.mem_append.mp hp with h1 | h1
              · rw [mergeEntries_eq_map] at h1
                obtain ⟨q, hq, hpq⟩ := List.mem_map.mp h1
                subst hpq
                rw [hw]
                exact ih (q.1, wv) (alLookup_mem hw) (entriesWf_mem hew (alLookup_mem hw)) q.2
              · have hpw := (List.mem_filter.mp h1).1
                rw [alLookup_nodup_mem hnd hpw] at hw
                obtain rfl := Option.some.inj hw
                exact dictCombine_self _ (entriesWf_mem hew hpw))
          show Value.dict (dictMerge (dictMerge sd wd) wd) = Value.dict (dictMerge sd wd)
          rw [dictMerge, hme, hfil, List.append_nil]

theorem fieldCombine_absorb {w : Value} (hwf : w.wf = true) (s : Value) :
    (s.fieldCombine w).fieldCombine w = s.fieldCombine w := by
  cases s with
  | scalar n => cases w <;> rfl
  | listOp a d o e => cases w <;> rfl
  | timeSamples sts =>
      cases w with
      | scalar _ => rfl
      | listOp _ _ _ _ => rfl
      | dict _ => rfl
      | timeSamples wts =>
          show Value.timeSamples (tsUnion (tsUnion sts wts) wts)
            = Value.timeSamples (tsUnion sts wts)
          rw [tsUnion_absorb]
  | dict sd =>
      cases w with
      | scalar _ => rfl
      | listOp _ _ _ _ => rfl
      | timeSamples _ => rfl
      | dict wd =>
          have habs := dictCombine_absorb (.dict wd) hwf (.dict sd)
          rw [dictCombine_dict] at habs
          show ((Value.dict sd).dictCombine (.dict wd)).fieldCombine (.dict wd)
            = (Value.dict sd).dictCombine (.dict wd)
          rw [dictCombine_dict]
          show (Value.dict (dictMerge sd wd)).dictCombine (.dict wd)
            = Value.dict (dictMerge sd wd)
          exact habs

/-! Idempotence machinery at the field-map and tree levels. -/

theorem stitchFields_keys (p : List String) (sf wf : Fields) :
    (stitchFields none p sf wf).map Prod.fst = fieldKeys sf wf := by
  show ((fieldKeys sf wf).filterMap (fun k =>
      (stitchFieldValue none p k (alLookup sf k) (alLookup wf k)).map
        (fun v => (k, v)))).map Prod.fst = fieldKeys sf wf
  apply keys_filterMap_keys
  intro x hx
  rw [mem_fieldKeys] at hx
  show (defaultStitchValue (alLookup sf x) (alLookup wf x)).isSome = true
  rcases hx with h | h
  · have h2 := (alLookup_isSome_iff sf x).mpr h
    cases h1 : alLookup sf x with
    | some sv => cases alLookup wf x <;> rfl
    | none =>
        rw [h1] at h2
        simp at h2
  · have h2 := (alLookup_isSome_iff wf x).mpr h
    cases h1 : alLookup wf x with
    | some wv => cases alLookup sf x <;> rfl
    | none =>
        rw [h1] at h2
        simp at h2

theorem alLookup_filterMap_self {κ α : Type} [DecidableEq κ] {l : List (κ × α)}
    (hnd : (l.map Prod.fst).Nodup) :
    (l.map Prod.fst).filterMap (fun k => (alLookup l k).map (fun v => (k, v))) = l := by
  induction l with
  | nil => rfl
  | cons a rest ih =>
      obtain ⟨k0, v0⟩ := a
      rw [List.map_cons, List.nodup_cons] at hnd
      show List.filterMap _ (k0 :: rest.map Prod.fst) = (k0, v0) :: rest
      rw [List.filterMap_cons]
      have h0 : alLookup ((k0, v0) :: rest) k0 = some v0 := by
        rw [alLookup_cons]
        simp
      rw [h0]
      simp only [Option.map_some']
      have hcong : ∀ x ∈ rest.map Prod.fst,
          alLookup ((k0, v0) :: rest) x = alLookup rest x := by
        intro x hx
        rw [alLookup_cons]
        have : k0 ≠ x := fun he => hnd.1 (he ▸ hx)
        rw [if_neg this]
      rw [filterMap_keys_congr hcong, ih hnd.2]

theorem stitchFields_self (p : List String) {fs : Fields} (h : fieldsWf fs = true) :
    stitchFields none p fs fs = fs := by
  obtain ⟨hnd, hv⟩ := fieldsWf_parts h
  have hfil : (fs.map Prod.fst).filter (fun k => (alLookup fs k).isNone) = [] := by
    rw [List.filter_eq_nil_iff]
    intro x hx
    have h2 := (alLookup_isSome_iff fs x).mpr hx
    cases h1 : alLookup fs x with
    | some v => simp [h1]
    | none =>
        rw [h1] at h2
        simp at h2
  have hfk : fieldKeys fs fs = fs.map Prod.fst := by
    show fs.map Prod.fst ++ (fs.map Prod.fst).filter (fun k => (alLookup fs k).isNone)
      = fs.map Prod.fst
    rw [hfil, List.append_nil]
  show (fieldKeys fs fs).filterMap (fun k =>
      (stitchFieldValue none p k (alLookup fs k) (alLookup fs k)).map
        (fun v => (k, v))) = fs
  rw [hfk]
  have hcong : ∀ k ∈ fs.map Prod.fst,
      stitchFieldValue none p k (alLookup fs k) (alLookup fs k) = alLookup fs k := by
    intro k hk
    cases h1 : alLookup fs k with
    | some v =>
        show some (v.fieldCombine v) = some v
        rw [fieldCombine_self v (fieldsValuesWf_mem hv (alLookup_mem h1))]
    | none => rfl
  rw [filterMap_keys_congr hcong, alLookup_filterMap_self hnd]

theorem stitchFields_absorb (p : List String) (sf : Fields) {wf : Fields}
    (hwf : fieldsWf wf = true) :
    stitchFields none p (stitchFields none p sf wf) wf = stitchFields none p sf wf := by
  obtain ⟨hnd, hvw⟩ := fieldsWf_parts hwf
  have hkeys : (stitchFields none p sf wf).map Prod.fst = fieldKeys sf wf :=
    stitchFields_keys p sf wf
  have hfil : (wf.map Prod.fst).filter
      (fun k => (alLookup (stitchFields none p sf wf) k).isNone) = [] := by
    rw [List.filter_eq_nil_iff]
    intro x hx
    have hxm : x ∈ (stitchFields none p sf wf).map Prod.fst := by
      rw [hkeys, mem_fieldKeys]
      exact Or.inr hx
    have h2 := (alLookup_isSome_iff _ x).mpr hxm
    cases hb : alLookup (stitchFields none p sf wf) x with
    | some v => simp [hb]
    | none =>
        rw [hb] at h2
        simp at h2
  have hfk : fieldKeys (stitchFields none p sf wf) wf = fieldKeys sf wf := by
    show (stitchFields none p sf wf).map Prod.fst ++ (wf.map Prod.fst).filter
        (fun k => (alLookup (stitchFields none p sf wf) k).isNone) = fieldKeys sf wf
    rw [hkeys, hfil, List.append_nil]
  have hcong : ∀ k ∈ fieldKeys sf wf,
      stitchFieldValue none p k (alLookup (stitchFields none p sf wf) k) (alLookup wf k)
        = stitchFieldValue none p k (alLookup sf k) (alLookup wf k) := by
    intro k hk
    rw [stitchFields_lookup, if_pos hk]
    show defaultStitchValue (defaultStitchValue (alLookup sf k) (alLookup wf k)) (alLookup wf k)
      = defaultStitchValue (alLookup sf k) (alLookup wf k)
    cases hs : alLookup sf k with
    | some sv =>
        cases hw : alLookup wf k with
        | some wv =>
            show some ((sv.fieldCombine wv).fieldCombine wv) = some (sv.fieldCombine wv)
            rw [fieldCombine_absorb (fieldsValuesWf_mem hvw (alLookup_mem hw))]
        | none => rfl
    | none =>
        cases hw : alLookup wf k with
        | some wv =>
            show some (wv.fieldCombine wv) = some wv
            rw [fieldCombine_self wv (fieldsValuesWf_mem hvw (alLookup_mem hw))]
        | none => rfl
  show (fieldKeys (stitchFields none p sf wf) wf).filterMap (fun k =>
      (stitchFieldValue none p k (alLookup (stitchFields none p sf wf) k)
        (alLookup wf k)).map (fun v => (k, v))) = stitchFields none p sf wf
  rw [hfk, filterMap_keys_congr hcong]
  rfl

theorem stitchChildren_eq_self {cb : Option UsdUtilsStitchValueFn} {p : List String}
    {sc wc : List (String × SpecTree)}
    (h : ∀ q ∈ sc, ∀ wt, alLookup wc q.1 = some wt →
      stitchTree cb (p ++ [q.1]) q.2 wt = q.2) :
    stitchChildren cb p sc wc = sc := by
  induction sc with
  | nil => rfl
  | cons a rest ih =>
      obtain ⟨c, st⟩ := a
      rw [stitchChildren]
      have ht : stitchChildren cb p rest wc = rest :=
        ih (fun q hq wt hw => h q (List.mem_cons_of_mem _ hq) wt hw)
      cases hw : alLookup wc c with
      | some wt =>
          show (c, stitchTree cb (p ++ [c]) st wt) :: stitchChildren cb p rest wc
            = (c, st) :: rest
          rw [h (c, st) (List.mem_cons_self _ _) wt hw, ht]
      | none =>
          show (c, st) :: stitchChildren cb p rest wc = (c, st) :: rest
          rw [ht]

theorem stitchTree_self (t : SpecTree) : t.wf = true → ∀ p, stitchTree none p t t = t := by
  induction t using treeInductDeep with
  | h f c ih =>
      intro hwf p
      obtain ⟨hf, hnd, hcw⟩ := specWf_parts hwf
      rw [stitchTree_node]
      have hfil : c.filter (fun q => (alLookup c q.1).isNone) = [] :=
        filter_absent_nil c c (fun a ha =>
          (alLookup_isSome_iff c a.1).mpr (List.mem_map.mpr ⟨a, ha, rfl⟩))
      have hsc : stitchChildren none p c c = c :=
        stitchChildren_eq_self (fun q hq wt hw => by
          rw [alLookup_nodup_mem hnd hq] at hw
          obtain rfl := Option.some.inj hw
          exact ih q hq (childrenWf_mem hcw hq) (p ++ [q.1]))
      rw [stitchFields_self p hf, hsc, hfil, List.append_nil]

theorem stitchTree_absorb (w : SpecTree) : w.wf = true →
    ∀ (s : SpecTree) (p : List String),
      stitchTree none p (stitchTree none p s w) w = stitchTree none p s w := by
  induction w using treeInductDeep with
  | h wfld wc ih =>
      intro hwf s p
      obtain ⟨hfw, hnd, hcw⟩ := specWf_parts hwf
      obtain ⟨sf, sc⟩ := s
      rw [stitchTree_node, stitchTree_node]
      have hlook : ∀ a : String × SpecTree, a ∈ wc →
          (alLookup (stitchChildren none p sc wc
            ++ wc.filter (fun q => (alLookup sc q.1).isNone)) a.1).isSome = true := by
        intro a ha
        cases h1 : alLookup sc a.1 with
        | some st =>
            have h2 : alLookup (stitchChildren none p sc wc) a.1
                = some (match alLookup wc a.1 with
                        | some wt => stitchTree none (p ++ [a.1]) st wt
                        | none => st) := by
              rw [stitchChildren_lookup, h1]
              rfl
            rw [alLookup_append_some _ h2]
            rfl
        | none =>
            have h2 : alLookup (stitchChildren none p sc wc) a.1 = none := by
              rw [stitchChildren_lookup, h1]
              rfl
            rw [alLookup_append_none _ h2,
              alLookup_filter_key (fun x => (alLookup sc x).isNone) wc a.1, h1]
            show (if True then alLookup wc a.1 else none).isSome = true
            rw [if_pos trivial]
            exact (alLookup_isSome_iff wc a.1).mpr (List.mem_map.mpr ⟨a, ha, rfl⟩)
      have hfil2 : wc.filter (fun q => (alLookup (stitchChildren none p sc wc
          ++ wc.filter (fun q => (alLookup sc q.1).isNone)) q.1).isNone) = [] :=
        filter_absent_nil _ wc hlook
      have hme : stitchChildren none p (stitchChildren none p sc wc
          ++ wc.filter (fun q => (alLookup sc q.1).isNone)) wc
          = stitchChildren none p sc wc
            ++ wc.filter (fun q => (alLookup sc q.1).isNone) :=
        stitchChildren_eq_self (fun q hq wt hw => by
          rcases List.mem_append.mp hq with h1 | h1
          · rw [stitchChildren_eq_map] at h1
            obtain ⟨r, hr, hrq⟩ := List.mem_map.mp h1
            subst hrq
            rw [hw]
            exact ih (r.1, wt) (alLookup_mem hw)
              (childrenWf_mem hcw (alLookup_mem hw)) r.2 (p ++ [r.1])
          · have hqw := (List.mem_filter.mp h1).1
            rw [alLookup_nodup_mem hnd hqw] at hw
            obtain rfl := Option.some.inj hw
            exact stitchTree_self q.2 (childrenWf_mem hcw hqw) (p ++ [q.1]))
      rw [stitchFields_absorb p sf hfw, hme, hfil2, List.append_nil]

theorem optMin_absorb (a b : Option Rat) : optMin (optMin a b) b = optMin a b := by
  cases a with
  | none =>
      cases b with
      | none => rfl
      | some b0 =>
          show some (min b0 b0) = some b0
          rw [min_self]
  | some a0 =>
      cases b with
      | none => rfl
      | some b0 =>
          show some (min (min a0 b0) b0) = some (min a0 b0)
          rw [min_assoc, min_self]

theorem optMax_absorb (a b : Option Rat) : optMax (optMax a b) b = optMax a b := by
  cases a with
  | none =>
      cases b with
      | none => rfl
      | some b0 =>
          show some (max b0 b0) = some b0
          rw [max_self]
  | some a0 =>
      cases b with
      | none => rfl
      | some b0 =>
          show some (max (max a0 b0) b0) = some (max a0 b0)
          rw [max_assoc, max_self]

/-! Path lookup through a merged tree. -/

theorem stitchTree_lookupPath (cb : Option UsdUtilsStitchValueFn)
    (P : List String) :
    ∀ (p : List String) (s w : SpecTree),
    lookupPath (stitchTree cb p s w) P =
      match lookupPath s P, lookupPath w P with
      | some st, some wt => some (stitchTree cb (p ++ P) st wt)
      | some st, none => some st
      | none, owt => owt := by
  induction P with
  | nil =>
      intro p s w
      show some (stitchTree cb p s w) = some (stitchTree cb (p ++ []) s w)
      rw [List.append_nil]
  | cons c rest ih =>
      intro p s w
      have h1 : ∀ (t : SpecTree), lookupPath t (c :: rest)
          = match alLookup t.children c with
            | some child => lookupPath child rest
            | none => none := fun t => rfl
      rw [h1 s, h1 w, h1 (stitchTree cb p s w), stitchTree_children_lookup]
      cases hs : alLookup s.children c with
      | some st =>
          cases hw : alLookup w.children c with
          | some wt =>
              show lookupPath (stitchTree cb (p ++ [c]) st wt) rest = _
              rw [ih (p ++ [c]) st wt]
              have hap : p ++ [c] ++ rest = p ++ c :: rest := by
                rw [List.append_assoc]
                rfl
              rw [hap]
          | none =>
              show lookupPath st rest
                = match lookupPath st rest, (none : Option SpecTree) with
                  | some st, some wt => some (stitchTree cb (p ++ c :: rest) st wt)
                  | some st, none => some st
                  | none, owt => owt
              cases lookupPath st rest <;> rfl
      | none =>
          cases hw : alLookup w.children c with
          | some wt =>
              show lookupPath wt rest
                = match (none : Option SpecTree), lookupPath wt rest with
                  | some st, some wt => some (stitchTree cb (p ++ c :: rest) st wt)
                  | some st, none => some st
                  | none, owt => owt
              cases lookupPath wt rest <;> rfl
          | none => rfl

theorem stitchFields_isSome_of_weak (p : List String) (sf wf : Fields) (k : String)
    (hw : (alLookup wf k).isSome = true) :
    (alLookup (stitchFields none p sf wf) k).isSome = true := by
  have hmem : k ∈ wf.map Prod.fst := (alLookup_isSome_iff wf k).mp hw
  cases hs : alLookup sf k with
  | some sv =>
      rw [stitchFields_lookup_strong none p wf hs]
      cases h2 : alLookup wf k with
      | some wv => rfl
      | none =>
          rw [h2] at hw
          simp at hw
  | none =>
      rw [stitchFields_lookup_weak none p hs hmem]
      cases h2 : alLookup wf k with
      | some wv => rfl
      | none =>
          rw [h2] at hw
          simp at hw

theorem dictCombine_not_both_dict {sv wv : Value}
    (h : sv.isDict = false ∨ wv.isDict = false) :
    sv.dictCombine wv = sv := by
  cases sv with
  | scalar n => cases wv <;> rfl
  | listOp a d o e => cases wv <;> rfl
  | timeSamples s => cases wv <;> rfl
  | dict es =>
      cases wv with
      | scalar n => rfl
      | listOp a d o e => rfl
      | timeSamples s => rfl
      | dict ws =>
          rcases h with h | h <;> simp [Value.isDict] at h

theorem stitchFields_plain_strong (p : List String) {sf : Fields} (wf : Fields)
    {k : String} {v : Value} (hs : alLookup sf k = some v) (hp : v.isPlain = true) :
    alLookup (stitchFields none p sf wf) k = some v := by
  rw [stitchFields_lookup_strong none p wf hs]
  cases hw : alLookup wf k with
  | none => rfl
  | some wv =>
      show some (v.fieldCombine wv) = some v
      cases v with
      | scalar n => cases wv <;> rfl
      | listOp a d o e => cases wv <;> rfl
      | timeSamples s => simp [Value.isPlain] at hp
      | dict es => simp [Value.isPlain] at hp

/-! Claim theorems. -/

/-- C1 counterexample: the claim that every field present in the strong spec
keeps its value across a default merge fails at a concrete input — a
time-sample-valued field present on both sides gains the weak map's key
under `UsdUtilsStitchInfo`, so its value changes. -/
theorem stitch_precedence_counterexample :
    alLookup (UsdUtilsStitchInfo
        (.node [("ts", .timeSamples [(101, 1)])] [])
        (.node [("ts", .timeSamples [(102, 2)])] [])).fields "ts"
      = some (.timeSamples [(101, 1), (102, 2)])
    ∧ alLookup (SpecTree.fields (.node [("ts", .timeSamples [(101, 1)])] [])) "ts"
      = some (.timeSamples [(101, 1)])
    ∧ Value.timeSamples [(101, 1), (102, 2)] ≠ Value.timeSamples [(101, 1)] := by
  refine ⟨rfl, rfl, fun h => ?_⟩
  simp at h

/-- C1 (amended): with no callback, every field whose value is a scalar or a
list-edit operation keeps its exact value wherever it is present on the
strong side — on a spec pair under `UsdUtilsStitchInfo`, in the strong
layer's metadata under `UsdUtilsStitchLayers`, and on the strong layer's
spec at any path under `UsdUtilsStitchLayers`; in particular a list-edit
field present on both sides keeps the strong side's whole value, with no
element-wise combination.  (Dictionary- and time-sample-valued fields may
instead gain weak-only entries, and the start/end time codes aggregate by
min/max.) -/
theorem stitch_precedence_plain (S W : Layer) (strongObj weakObj : SpecTree)
    (k : String) :
    (∀ v, alLookup strongObj.fields k = some v → v.isPlain = true →
      alLookup (UsdUtilsStitchInfo strongObj weakObj).fields k = some v)
    ∧ (∀ v, alLookup S.metadata k = some v → v.isPlain = true →
      alLookup (UsdUtilsStitchLayers S W).metadata k = some v)
    ∧ (∀ P st v, lookupPath S.root P = some st →
      alLookup st.fields k = some v → v.isPlain = true →
      ∃ mt, lookupPath (UsdUtilsStitchLayers S W).root P = some mt
        ∧ alLookup mt.fields k = some v)
    ∧ (∀ a d o e, alLookup strongObj.fields k = some (.listOp a d o e) →
      alLookup (UsdUtilsStitchInfo strongObj weakObj).fields k
        = some (.listOp a d o e)) := by
  have h1 : ∀ v, alLookup strongObj.fields k = some v → v.isPlain = true →
      alLookup (UsdUtilsStitchInfo strongObj weakObj).fields k = some v := by
    intro v hs hp
    exact stitchFields_plain_strong [] weakObj.fields hs hp
  have h2 : ∀ v, alLookup S.metadata k = some v → v.isPlain = true →
      alLookup (UsdUtilsStitchLayers S W).metadata k = some v := by
    intro v hs hp
    exact stitchFields_plain_strong [] W.metadata hs hp
  have h3 : ∀ P st v, lookupPath S.root P = some st →
      alLookup st.fields k = some v → v.isPlain = true →
      ∃ mt, lookupPath (UsdUtilsStitchLayers S W).root P = some mt
        ∧ alLookup mt.fields k = some v := by
    intro P st v hls hsf hp
    show ∃ mt, lookupPath (stitchTree none [] S.root W.root) P = some mt ∧ _
    rw [stitchTree_lookupPath none P [] S.root W.root, hls]
    cases hlw : lookupPath W.root P with
    | some wt =>
        refine ⟨stitchTree none ([] ++ P) st wt, rfl, ?_⟩
        rw [stitchTree_fields]
        exact stitchFields_plain_strong ([] ++ P) wt.fields hsf hp
    | none => exact ⟨st, rfl, hsf⟩
  exact ⟨h1, h2, h3, fun a d o e hs => h1 (.listOp a d o e) hs rfl⟩

/-- C1 witness: the amended precedence theorem at concrete inputs — the
strong layer's scalar metadata field keeps its value across
`UsdUtilsStitchLayers`, the strong root spec's list-edit field keeps its
whole value on the merged layer's root spec, and a list-edit references
field present on both sides of a spec pair keeps the strong side's whole
value. -/
theorem stitch_precedence_plain_witness :
    alLookup (UsdUtilsStitchLayers sampleStrongLayer sampleWeakLayer).metadata "fps"
      = some (.scalar 24)
    ∧ (∃ mt, lookupPath (UsdUtilsStitchLayers sampleStrongLayer sampleWeakLayer).root []
        = some mt ∧ alLookup mt.fields "r" = some (.listOp ["A"] [] [] []))
    ∧ alLookup (UsdUtilsStitchInfo
        (.node [("references", .listOp [] [] [] ["A"])] [])
        (.node [("references", .listOp [] [] [] ["B"])] [])).fields "references"
      = some (.listOp [] [] [] ["A"]) :=
  ⟨(stitch_precedence_plain sampleStrongLayer sampleWeakLayer
      (.node [] []) (.node [] []) "fps").2.1 (.scalar 24) rfl rfl,
   (stitch_precedence_plain sampleStrongLayer sampleWeakLayer
      (.node [] []) (.node [] []) "r").2.2.1 [] sampleStrongLayer.root
      (.listOp ["A"] [] [] []) rfl rfl rfl,
   (stitch_precedence_plain sampleStrongLayer sampleWeakLayer
      (.node [("references", .listOp [] [] [] ["A"])] [])
      (.node [("references", .listOp [] [] [] ["B"])] []) "references").2.2.2
     [] [] [] ["A"] rfl⟩

/-- C2: completion — with no callback, a field present in the weak spec but
absent in the strong spec is present afterwards with the weak value copied
verbatim; every weak-present field is present in the merged spec; and at
the layer level, every field of every weak spec is present on the
corresponding merged spec. -/
theorem stitch_completion (strongObj weakObj : SpecTree) (k : String)
    (S W : Layer) (P : List String) :
    (alLookup strongObj.fields k = none → (alLookup weakObj.fields k).isSome = true →
      alLookup (UsdUtilsStitchInfo strongObj weakObj).fields k
        = alLookup weakObj.fields k)
    ∧ ((alLookup weakObj.fields k).isSome = true →
      (alLookup (UsdUtilsStitchInfo strongObj weakObj).fields k).isSome = true)
    ∧ (∀ wt, lookupPath W.root P = some wt → (alLookup wt.fields k).isSome = true →
      ∃ mt, lookupPath (UsdUtilsStitchLayers S W).root P = some mt
        ∧ (alLookup mt.fields k).isSome = true) := by
  refine ⟨?_, ?_, ?_⟩
  · intro hs hw
    have hmem : k ∈ weakObj.fields.map Prod.fst := (alLookup_isSome_iff _ k).mp hw
    show alLookup (stitchFields none [] strongObj.fields weakObj.fields) k = _
    rw [stitchFields_lookup_weak none [] hs hmem]
    cases h2 : alLookup weakObj.fields k with
    | some wv => rfl
    | none =>
        rw [h2] at hw
        simp at hw
  · intro hw
    exact stitchFields_isSome_of_weak [] strongObj.fields weakObj.fields k hw
  · intro wt hlw hk
    show ∃ mt, lookupPath (stitchTree none [] S.root W.root) P = some mt ∧ _
    rw [stitchTree_lookupPath none P [] S.root W.root, hlw]
    cases hls : lookupPath S.root P with
    | some st =>
        refine ⟨stitchTree none ([] ++ P) st wt, rfl, ?_⟩
        rw [stitchTree_fields]
        exact stitchFields_isSome_of_weak ([] ++ P) st.fields wt.fields k hk
    | none => exact ⟨wt, rfl, hk⟩

/-- C2 witness: the completion theorem at a concrete input — a weak-only
scalar field is copied verbatim. -/
theorem stitch_completion_witness :
    alLookup (UsdUtilsStitchInfo (.node [] [])
        (.node [("a", .scalar 7)] [])).fields "a"
      = alLookup (SpecTree.fields (.node [("a", .scalar 7)] [])) "a" :=
  (stitch_completion (.node [] []) (.node [("a", .scalar 7)] []) "a"
    sampleStrongLayer sampleWeakLayer []).1 rfl rfl

/-- C3: merging is idempotent — for a well-formed weak layer, running
`UsdUtilsStitchLayers` a second time with the same weak input against the
already-merged strong output changes nothing, across all policies
(dictionary union, time-sample union, min/max time codes, tree walk). -/
theorem stitchLayers_idempotent (S W : Layer) (h : W.wf = true) :
    UsdUtilsStitchLayers (UsdUtilsStitchLayers S W) W = UsdUtilsStitchLayers S W := by
  rw [Layer.wf, Bool.and_eq_true] at h
  show Layer.mk
      (optMin (optMin S.startTimeCode W.startTimeCode) W.startTimeCode)
      (optMax (optMax S.endTimeCode W.endTimeCode) W.endTimeCode)
      (stitchFields none [] (stitchFields none [] S.metadata W.metadata) W.metadata)
      (stitchTree none [] (stitchTree none [] S.root W.root) W.root)
    = Layer.mk (optMin S.startTimeCode W.startTimeCode)
      (optMax S.endTimeCode W.endTimeCode)
      (stitchFields none [] S.metadata W.metadata)
      (stitchTree none [] S.root W.root)
  rw [optMin_absorb, optMax_absorb, stitchFields_absorb [] S.metadata h.1,
    stitchTree_absorb W.root h.2 S.root []]

/-- C3 witness: the idempotence theorem at concrete layers exercising
dictionary union, list-edit precedence, scalar completion, subtree cloning
and min/max time codes. -/
theorem stitchLayers_idempotent_witness :
    sampleWeakLayer.wf = true
    ∧ UsdUtilsStitchLayers (UsdUtilsStitchLayers sampleStrongLayer sampleWeakLayer)
        sampleWeakLayer
      = UsdUtilsStitchLayers sampleStrongLayer sampleWeakLayer :=
  ⟨rfl, stitchLayers_idempotent sampleStrongLayer sampleWeakLayer rfl⟩

/-- C4 counterexample: a key holding a non-dictionary on the strong side and
a dictionary on the weak side resolves to the strong value, so the weak
side's nested key is not present in the merged dictionary at any depth —
refuting the claim's "every weak key at any nesting depth is present". -/
theorem dict_deep_union_counterexample :
    alLookup (UsdUtilsStitchInfo
        (.node [("d", .dict [("a", .scalar 1)])] [])
        (.node [("d", .dict [("a", .dict [("b", .scalar 2)])])] [])).fields "d"
      = some (.dict [("a", .scalar 1)])
    ∧ Value.hasKeyDeep (.dict [("a", .dict [("b", .scalar 2)])]) "b" = true
    ∧ Value.hasKeyDeep (.dict [("a", .scalar 1)]) "b" = false :=
  ⟨rfl, rfl, rfl⟩

/-- C4 (amended): dictionary merge is a key-wise union at each level: every
weak top-level key is present in the merged dictionary; a key absent from
the strong side gets the weak value inserted; a key holding dictionaries on
both sides recurses; a key present on both sides without two dictionaries
keeps the strong value, with no error raised (the merge is total).  Weak
keys nested below such a non-dictionary collision are not retained. -/
theorem dict_merge_level (sd wd : List (String × Value)) (k : String) :
    ((Value.dict sd).dictCombine (.dict wd) = .dict (dictMerge sd wd))
    ∧ ((alLookup wd k).isSome = true → (alLookup (dictMerge sd wd) k).isSome = true)
    ∧ (alLookup sd k = none → alLookup (dictMerge sd wd) k = alLookup wd k)
    ∧ (∀ se we, alLookup sd k = some (.dict se) → alLookup wd k = some (.dict we) →
      alLookup (dictMerge sd wd) k = some (.dict (dictMerge se we)))
    ∧ (∀ sv wv, alLookup sd k = some sv → alLookup wd k = some wv →
      sv.isDict = false ∨ wv.isDict = false →
      alLookup (dictMerge sd wd) k = some sv) := by
  refine ⟨dictCombine_dict sd wd, ?_, ?_, ?_, ?_⟩
  · intro hw
    rw [dictMerge_lookup]
    cases hs : alLookup sd k with
    | some sv => rfl
    | none => exact hw
  · intro hs
    rw [dictMerge_lookup, hs]
  · intro se we hs hw
    rw [dictMerge_lookup, hs, hw]
    show some ((Value.dict se).dictCombine (.dict we)) = _
    rw [dictCombine_dict]
  · intro sv wv hs hw hnb
    rw [dictMerge_lookup, hs, hw]
    show some (sv.dictCombine wv) = some sv
    rw [dictCombine_not_both_dict hnb]

/-- C4 witness: the amended dictionary-merge theorem at a concrete input —
a key holding dictionaries on both sides recurses into them. -/
theorem dict_merge_level_witness :
    alLookup (dictMerge
        [("n", Value.dict [("u", .scalar 5)])]
        [("n", Value.dict [("v", .scalar 6)]), ("z", .scalar 9)]) "n"
      = some (.dict (dictMerge [("u", Value.scalar 5)] [("v", Value.scalar 6)])) :=
  (dict_merge_level
      [("n", Value.dict [("u", .scalar 5)])]
      [("n", Value.dict [("v", .scalar 6)]), ("z", .scalar 9)] "n").2.2.2.1
    [("u", .scalar 5)] [("v", .scalar 6)] rfl rfl

/-- C5: time-sample maps merge by key union with exact numeric key
comparison: a strong key keeps the strong value, a weak-only key is
inserted, every weak key survives; two numerically close but distinct keys
(101.000001 and 101.000002) are kept as distinct entries. -/
theorem timeSamples_union_exact (sd wd : List (Rat × Nat)) (t : Rat) :
    (∀ v, alLookup sd t = some v → alLookup (tsUnion sd wd) t = some v)
    ∧ (alLookup sd t = none → alLookup (tsUnion sd wd) t = alLookup wd t)
    ∧ ((alLookup wd t).isSome = true → (alLookup (tsUnion sd wd) t).isSome = true)
    ∧ alLookup (UsdUtilsStitchInfo
        (.node [("timeSamples", .timeSamples [(mkRat 101000001 1000000, 10)])] [])
        (.node [("timeSamples",
          .timeSamples [(mkRat 101000002 1000000, 20)])] [])).fields "timeSamples"
      = some (.timeSamples
          [(mkRat 101000001 1000000, 10), (mkRat 101000002 1000000, 20)])
    ∧ mkRat 101000001 1000000 ≠ mkRat 101000002 1000000 := by
  refine ⟨?_, ?_, ?_, rfl, by decide⟩
  · intro v hs
    rw [tsUnion_lookup, hs]
  · intro hs
    rw [tsUnion_lookup, hs]
  · intro hw
    rw [tsUnion_lookup]
    cases hs : alLookup sd t with
    | some v => rfl
    | none => exact hw

/-- C5 witness: the time-sample union theorem at a concrete input — the
strong key keeps the strong value and the weak-only key is inserted. -/
theorem timeSamples_union_exact_witness :
    alLookup (tsUnion [(101, 1)] [(102, 2)]) 101 = some 1
    ∧ alLookup (tsUnion [(101, 1)] [(102, 2)]) 102 = alLookup [(102, 2)] 102 :=
  ⟨(timeSamples_union_exact [(101, 1)] [(102, 2)] 101).1 1 rfl,
   (timeSamples_union_exact [(101, 1)] [(102, 2)] 102).2.1 rfl⟩

theorem stitchFields_default_cb (p : List String) (sf wf : Fields) :
    stitchFields none p sf wf = stitchFields (some alwaysUseDefault) p sf wf := rfl

theorem stitchTree_default_cb (s : SpecTree) :
    ∀ (w : SpecTree) (p : List String),
    stitchTree none p s w = stitchTree (some alwaysUseDefault) p s w := by
  induction s using treeInductDeep with
  | h f c ih =>
      intro w p
      obtain ⟨wfld, wc⟩ := w
      rw [stitchTree_node, stitchTree_node]
      have hch : ∀ (cs : List (String × SpecTree)),
          (∀ q ∈ cs, ∀ (w2 : SpecTree) (p2 : List String),
            stitchTree none p2 q.2 w2 = stitchTree (some alwaysUseDefault) p2 q.2 w2) →
          stitchChildren none p cs wc = stitchChildren (some alwaysUseDefault) p cs wc := by
        intro cs
        induction cs with
        | nil => intro _; rfl
        | cons a rest ihc =>
            intro hq
            obtain ⟨c0, t0⟩ := a
            rw [stitchChildren, stitchChildren]
            have hhead : (match alLookup wc c0 with
                | some wt => stitchTree none (p ++ [c0]) t0 wt
                | none => t0)
              = (match alLookup wc c0 with
                | some wt => stitchTree (some alwaysUseDefault) (p ++ [c0]) t0 wt
                | none => t0) := by
              cases hw : alLookup wc c0 with
              | some wt => exact hq (c0, t0) (List.mem_cons_self _ _) wt (p ++ [c0])
              | none => rfl
            rw [hhead, ihc (fun q hqm => hq q (List.mem_cons_of_mem _ hqm))]
      rw [stitchFields_default_cb, hch c ih]

/-- C6: after `UsdUtilsStitchLayers` the strong layer's start time code is
the minimum and its end time code the maximum across the two layers, a
missing value being excluded from the comparison (not treated as zero): if
both sides define a value the min (resp. max) is taken, and if only one
side does, that value is used directly. -/
theorem stitch_timecodes (S W : Layer) :
    (∀ a b, S.startTimeCode = some a → W.startTimeCode = some b →
      (UsdUtilsStitchLayers S W).startTimeCode = some (min a b))
    ∧ (∀ a, S.startTimeCode = some a → W.startTimeCode = none →
      (UsdUtilsStitchLayers S W).startTimeCode = some a)
    ∧ (S.startTimeCode = none →
      (UsdUtilsStitchLayers S W).startTimeCode = W.startTimeCode)
    ∧ (∀ a b, S.endTimeCode = some a → W.endTimeCode = some b →
      (UsdUtilsStitchLayers S W).endTimeCode = some (max a b))
    ∧ (∀ a, S.endTimeCode = some a → W.endTimeCode = none →
      (UsdUtilsStitchLayers S W).endTimeCode = some a)
    ∧ (S.endTimeCode = none →
      (UsdUtilsStitchLayers S W).endTimeCode = W.endTimeCode) := by
  refine ⟨?_, ?_, ?_, ?_, ?_, ?_⟩
  · intro a b hs hw
    show optMin S.startTimeCode W.startTimeCode = some (min a b)
    rw [hs, hw]
    rfl
  · intro a hs hw
    show optMin S.startTimeCode W.startTimeCode = some a
    rw [hs, hw]
    rfl
  · intro hs
    show optMin S.startTimeCode W.startTimeCode = W.startTimeCode
    rw [hs]
    cases W.startTimeCode <;> rfl
  · intro a b hs hw
    show optMax S.endTimeCode W.endTimeCode = some (max a b)
    rw [hs, hw]
    rfl
  · intro a hs hw
    show optMax S.endTimeCode W.endTimeCode = some a
    rw [hs, hw]
    rfl
  · intro hs
    show optMax S.endTimeCode W.endTimeCode = W.endTimeCode
    rw [hs]
    cases W.endTimeCode <;> rfl

/-- C6 witness: the time-code aggregation theorem at the concrete layers —
strong start 5 and weak start 2 merge to 2, strong end 10 and weak end 20
merge to 20. -/
theorem stitch_timecodes_witness :
    (UsdUtilsStitchLayers sampleStrongLayer sampleWeakLayer).startTimeCode = some 2
    ∧ (UsdUtilsStitchLayers sampleStrongLayer sampleWeakLayer).endTimeCode = some 20 := by
  have h1 := (stitch_timecodes sampleStrongLayer sampleWeakLayer).1 5 2 rfl rfl
  have h2 := (stitch_timecodes sampleStrongLayer sampleWeakLayer).2.2.2.1 10 20 rfl rfl
  rw [h1, h2]
  refine ⟨?_, ?_⟩
  · norm_num
  · norm_num

/-- C7: whole-subtree clone — during a layer stitch (with or without a
callback), a weak spec at a path where the strong layer has no spec is
brought over verbatim: the merged layer holds exactly the weak subtree at
that path, with no further per-node processing of the cloned subtree. -/
theorem stitch_clone_subtree (cb : Option UsdUtilsStitchValueFn) (S W : Layer)
    (P : List String) (sub : SpecTree)
    (hs : lookupPath S.root P = none) (hw : lookupPath W.root P = some sub) :
    lookupPath (stitchLayerWork cb S W).root P = some sub := by
  show lookupPath (stitchTree cb [] S.root W.root) P = some sub
  rw [stitchTree_lookupPath cb P [] S.root W.root, hs, hw]

/-- C7 witness: the subtree-clone theorem at the concrete layers — the weak
layer's spec at path `b`, absent in the strong layer, appears verbatim in
the merged layer with its nested child and field. -/
theorem stitch_clone_subtree_witness :
    lookupPath (stitchLayerWork none sampleStrongLayer sampleWeakLayer).root ["b"]
      = some (.node [("g", .scalar 4)] [("bb", .node [] [])]) :=
  stitch_clone_subtree none sampleStrongLayer sampleWeakLayer ["b"]
    (.node [("g", .scalar 4)] [("bb", .node [] [])]) rfl rfl

/-- C8: callback deletion — a callback answering `UseSuppliedValue` with an
empty value for a field present in the strong spec removes that field, and
this is the only way a strong-present field can disappear: if a
strong-present field is absent after the merge, the callback returned
`UseSuppliedValue` with an empty value for it. -/
theorem callback_deletion (f : UsdUtilsStitchValueFn) (p : List String)
    (sf wf : Fields) (k : String) (sv : Value)
    (hs : alLookup sf k = some sv) :
    (f k p (some sv) (alLookup wf k) = (.useSuppliedValue, none) →
      alLookup (stitchFields (some f) p sf wf) k = none)
    ∧ (alLookup (stitchFields (some f) p sf wf) k = none →
      f k p (some sv) (alLookup wf k) = (.useSuppliedValue, none)) := by
  have hl := stitchFields_lookup_strong (some f) p wf hs
  constructor
  · intro hcb
    rw [hl]
    show (match f k p (some sv) (alLookup wf k) with
          | (.noStitchedValue, _) => some sv
          | (.useDefaultValue, _) => defaultStitchValue (some sv) (alLookup wf k)
          | (.useSuppliedValue, supplied) => supplied) = none
    rw [hcb]
  · intro hnone
    rw [hl] at hnone
    revert hnone
    show (match f k p (some sv) (alLookup wf k) with
          | (.noStitchedValue, _) => some sv
          | (.useDefaultValue, _) => defaultStitchValue (some sv) (alLookup wf k)
          | (.useSuppliedValue, supplied) => supplied) = none
      → f k p (some sv) (alLookup wf k) = (.useSuppliedValue, none)
    cases hcb : f k p (some sv) (alLookup wf k) with
    | mk status supplied =>
        cases status with
        | noStitchedValue =>
            intro h
            exact absurd h (by simp)
        | useDefaultValue =>
            intro h
            cases hw : alLookup wf k with
            | some wv =>
                rw [hw] at h
                exact absurd h (by simp [defaultStitchValue])
            | none =>
                rw [hw] at h
                exact absurd h (by simp [defaultStitchValue])
        | useSuppliedValue =>
            intro h
            have h2 : supplied = none := h
            rw [h2]

/-- C8 witness: the deletion theorem at a concrete input — a callback
supplying an empty value for the field `kill` removes it from the strong
field map. -/
theorem callback_deletion_witness :
    alLookup (stitchFields
        (some (fun field _ _ _ =>
          if field = "kill" then (.useSuppliedValue, none)
          else (.useDefaultValue, none)))
        [] [("kill", .scalar 1), ("keep", .scalar 2)] []) "kill" = none :=
  (callback_deletion
      (fun field _ _ _ =>
        if field = "kill" then (.useSuppliedValue, none)
        else (.useDefaultValue, none))
      [] [("kill", .scalar 1), ("keep", .scalar 2)] [] "kill" (.scalar 1) rfl).1 rfl

/-- C9: absence of a callback is equivalent to a callback that always
returns `UseDefaultValue` — the default and the callback forms of both
entry points produce identical results for all inputs. -/
theorem no_callback_equiv (S W : Layer) (strongObj weakObj : SpecTree) :
    UsdUtilsStitchLayers S W = UsdUtilsStitchLayersFn S W alwaysUseDefault
    ∧ UsdUtilsStitchInfo strongObj weakObj
      = UsdUtilsStitchInfoFn strongObj weakObj alwaysUseDefault := by
  constructor
  · show Layer.mk (optMin S.startTimeCode W.startTimeCode)
        (optMax S.endTimeCode W.endTimeCode)
        (stitchFields none [] S.metadata W.metadata)
        (stitchTree none [] S.root W.root)
      = Layer.mk (optMin S.startTimeCode W.startTimeCode)
        (optMax S.endTimeCode W.endTimeCode)
        (stitchFields (some alwaysUseDefault) [] S.metadata W.metadata)
        (stitchTree (some alwaysUseDefault) [] S.root W.root)
    rw [stitchFields_default_cb, stitchTree_default_cb S.root W.root []]
  · show SpecTree.node
        (stitchFields none [] strongObj.fields weakObj.fields) strongObj.children
      = SpecTree.node
        (stitchFields (some alwaysUseDefault) [] strongObj.fields weakObj.fields)
        strongObj.children
    rw [stitchFields_default_cb]

/-- C10: weak layer preservation — in the two-layer store model of the
in-place call, stitching replaces only the strong layer with the merge
result; the weak layer comes back untouched, and no layer is created or
destroyed. -/
theorem stitch_preserves_weak (cb : Option UsdUtilsStitchValueFn)
    (layers : Layer × Layer) :
    (stitchLayersState cb layers).2 = layers.2
    ∧ (stitchLayersState cb layers).1 = stitchLayerWork cb layers.1 layers.2 :=
  ⟨rfl, rfl⟩

end UsdUtils
